import Mathlib

set_option maxRecDepth 8000

/-!
Shallow embedding of the A-Mesob chatbot's document ingestion pipeline and
LLM request construction, translated from `src/documentProcessor.ts`,
`src/llmService.ts`, `src/App.tsx` and `src/types.ts`.

JavaScript strings are modelled as Lean `String` (a wrapped `List Char`);
all string work happens on the underlying `List Char`.  The regex classes
`\s` and `\d` are modelled by their ASCII fragment, which covers every
character the claims exercise, and `toLowerCase` is modelled by the ASCII
`Char.toLower`.
-/

/-- The JS regex whitespace class `\s`, ASCII fragment. -/
def isJsSpace (c : Char) : Bool :=
  c == ' ' || c == '\t' || c == '\n' || c == '\r' || c == '\x0b' || c == '\x0c'

/-- The JS regex digit class `\d`. -/
def isAsciiDigit (c : Char) : Bool :=
  '0' ≤ c && c ≤ '9'

/-- Step 1 of `cleanText` (documentProcessor.ts line 55):
`text.replace(/\n{2,}/g, '\n')`.  Each maximal run of two or more newlines
collapses to a single newline; equivalently, a newline that is immediately
followed by another newline is dropped. -/
def collapseNl : List Char → List Char
  | [] => []
  | [c] => [c]
  | c :: d :: rest =>
    if c == '\n' && d == '\n' then collapseNl (d :: rest)
    else c :: collapseNl (d :: rest)

/-- Step 2 of `cleanText` (documentProcessor.ts line 56):
`.replace(/\s+/g, ' ')`.  Each maximal run of whitespace collapses to a
single ASCII space. -/
def collapseWs : List Char → List Char
  | [] => []
  | [c] => if isJsSpace c then [' '] else [c]
  | c :: d :: rest =>
    if isJsSpace c then
      if isJsSpace d then collapseWs (d :: rest)
      else ' ' :: collapseWs (d :: rest)
    else c :: collapseWs (d :: rest)

/-- One match attempt of the regex `/Page\s+\d+/i` at the head of the list:
`Page` case-insensitively, then a non-empty greedy whitespace run, then a
non-empty greedy digit run.  Returns the remainder after the match. -/
def matchPageAt : List Char → Option (List Char)
  | p :: a :: g :: e :: rest =>
    if p.toLower == 'p' && a.toLower == 'a' && g.toLower == 'g' && e.toLower == 'e' then
      let wsRun := rest.takeWhile isJsSpace
      let afterWs := rest.dropWhile isJsSpace
      if wsRun.isEmpty then none
      else
        let digitRun := afterWs.takeWhile isAsciiDigit
        if digitRun.isEmpty then none
        else some (afterWs.dropWhile isAsciiDigit)
    else none
  | _ => none

/-- Fuel-indexed scan for step 3 of `cleanText` (documentProcessor.ts line 57):
`.replace(/Page\s+\d+/gi, '')`, removing every non-overlapping left-to-right
match.  Every step consumes at least one character, so fuel equal to the
input length is always sufficient. -/
def removePA : Nat → List Char → List Char
  | 0, l => l
  | _ + 1, [] => []
  | fuel + 1, c :: rest =>
    match matchPageAt (c :: rest) with
    | some r => removePA fuel r
    | none => c :: removePA fuel rest

/-- Step 3 of `cleanText`: remove all `/Page\s+\d+/gi` matches. -/
def removePageArtifacts (l : List Char) : List Char :=
  removePA l.length l

/-- Whether some position of the list starts a `/Page\s+\d+/i` match. -/
def hasArtifact : List Char → Bool
  | [] => false
  | c :: rest => (matchPageAt (c :: rest)).isSome || hasArtifact rest

/-- Step 4 of `cleanText` (documentProcessor.ts line 58): `.trim()`,
removing leading and trailing whitespace. -/
def trimChars (l : List Char) : List Char :=
  ((l.dropWhile isJsSpace).reverse.dropWhile isJsSpace).reverse

/-- `cleanText` (documentProcessor.ts lines 53-59): newline collapse, then
whitespace collapse, then page-artifact removal, then trim, in this order. -/
def cleanText (text : String) : String :=
  ⟨trimChars (removePageArtifacts (collapseWs (collapseNl text.data)))⟩

/-- Output discipline of whitespace collapsing: every whitespace character
is a plain space and is not immediately followed by more whitespace. -/
def wsOk : List Char → Bool
  | [] => true
  | [c] => !isJsSpace c || c == ' '
  | c :: d :: rest =>
    ((!isJsSpace c) || (c == ' ' && !isJsSpace d)) && wsOk (d :: rest)

/-- Fuel-indexed form of the `chunkText` loop (documentProcessor.ts lines
61-71).  The JS loop keeps an absolute offset and pushes
`text.substring(index, index + size)`; here the already-consumed prefix is
dropped instead, so each iteration pushes `l.take size` and continues on
`l.drop step` where `step = size - overlap`.  For `step ≥ 1` every
iteration shortens the list, so fuel equal to the input length is always
sufficient. -/
def chunkAux (size step : Nat) : Nat → List Char → List (List Char)
  | 0, _ => []
  | _ + 1, [] => []
  | fuel + 1, c :: rest =>
    (c :: rest).take size :: chunkAux size step fuel ((c :: rest).drop step)

/-- The chunk list of `l` for chunk size `size` and advance `step`. -/
def chunkList (size step : Nat) (l : List Char) : List (List Char) :=
  chunkAux size step l.length l

/-- `chunkText` (documentProcessor.ts lines 61-71) with its default
parameters `size = 2000`, `overlap = 200`. -/
def chunkText (text : String) (size : Nat := 2000) (overlap : Nat := 200) :
    List String :=
  (chunkList size (size - overlap) text.data).map fun c => ⟨c⟩

/-- The sequence of values of the JS loop variable `index` in `chunkText`:
`index` starts at 0 and each iteration executes `index += (size - overlap)`
(documentProcessor.ts line 67).  JS numbers may go negative, so the offset
is an integer. -/
def chunkOffset (size overlap : Int) : Nat → Int
  | 0 => 0
  | n + 1 => chunkOffset size overlap n + (size - overlap)

/-- Overlap-deduplicating concatenation, list level: the first chunk in
full, every later chunk with its first `overlap` characters dropped. -/
def mergeChunkLists (overlap : Nat) : List (List Char) → List Char
  | [] => []
  | c :: rest => c ++ (rest.map (List.drop overlap)).flatten

/-- Overlap-deduplicating concatenation of chunks, as described by the
spec's coverage property. -/
def mergeChunks (overlap : Nat) (chunks : List String) : String :=
  ⟨mergeChunkLists overlap (chunks.map String.data)⟩

/-- JS `String.prototype.split('.')` on the character list: splits at every
dot, keeping empty segments, always returning at least one segment. -/
def splitOnDot : List Char → List (List Char)
  | [] => [[]]
  | c :: rest =>
    match splitOnDot rest with
    | [] => [[]]
    | seg :: segs => if c == '.' then [] :: seg :: segs else (c :: seg) :: segs

/-- `file.name.split('.').pop()?.toLowerCase()` (documentProcessor.ts
line 6): the lowercased last dot-separated segment of the file name. -/
def fileExtension (name : String) : String :=
  ⟨((splitOnDot name.data).getLastD []).map Char.toLower⟩

/-- The three decoders `extractTextFromFile` can dispatch to. -/
inductive Decoder
  | pdf
  | docx
  | txt
deriving DecidableEq

/-- Outcome of format dispatch: a selected decoder, or the thrown
`Unsupported file type` error message. -/
inductive DispatchResult
  | ok : Decoder → DispatchResult
  | error : String → DispatchResult
deriving DecidableEq

/-- The dispatch performed by `extractTextFromFile` (documentProcessor.ts
lines 5-18): switch on the lowercased extension, with the default branch
throwing an error that names the (lowercased) extension.  The per-format
decoding itself is delegated to external libraries and is not modelled. -/
def selectDecoder (name : String) : DispatchResult :=
  let extension := fileExtension name
  if extension = "pdf" then .ok .pdf
  else if extension = "docx" then .ok .docx
  else if extension = "txt" then .ok .txt
  else .error ("Unsupported file type: " ++ extension)

/-- `MessageRole` (types.ts lines 2-6). -/
inductive MessageRole
  | user
  | assistant
  | system
deriving DecidableEq

/-- `ChatMessage` (types.ts lines 20-26). -/
structure ChatMessage where
  id : String
  role : MessageRole
  content : String
  timestamp : Nat
  sources : Option (List String) := none
deriving DecidableEq

/-- `DocumentInfo` (types.ts lines 28-36). -/
structure DocumentInfo where
  id : String
  name : String
  type : String
  content : String
  size : Nat
  uploadDate : Nat
  chunkCount : Nat
deriving DecidableEq

/-- The fixed fallback reply (llmService.ts line 74). -/
def fallbackMessage : String :=
  "A-Mesob Assistances: I'm sorry, I don't know based on the provided documents."

/-- `SCOUT_MODEL_ID` (llmService.ts line 10). -/
def scoutModelId : String := "gemini-3-flash-preview"

/-- The `trimmedContext` computation (llmService.ts lines 77-79): the
context itself up to 800000 characters, else its first 800000 characters
followed by the truncation marker. -/
def trimContext (context : String) : String :=
  if context.length > 800000 then (⟨context.data.take 800000⟩ : String) ++ "...[Content truncated]"
  else context

/-- The `systemInstruction` template literal (llmService.ts lines 81-89),
with the fallback message interpolated. -/
def systemInstructionText : String :=
  "\nYou are the A-Mesob Scout Engine, a document intelligence specialist. \nAnswer using ONLY the provided \"Document Context\".\n\nLOGICAL RULES:\n1. SEARCH: Thoroughly scan the Context.\n2. NOT FOUND: If missing, respond ONLY with: \"" ++
    fallbackMessage ++
    "\"\n3. FORMATTING: Use bullet points (•). NO bolding (**) or italics (*).\n"

/-- The request `generateResponse` hands to `ai.models.generateContent`
(llmService.ts lines 102-109): the model id, the `contents` array as
(role, text) pairs, and the `systemInstruction` config field. -/
structure GenRequest where
  model : String
  contents : List (String × String)
  systemInstruction : String
deriving DecidableEq

/-- Request construction in `generateResponse` (llmService.ts lines
68-109): `trimmedContext` is computed (line 77) but, as in the source, is
referenced nowhere else; `contents` maps the history (USER to role `user`,
everything else to `model`) and appends the question as a final `user`
turn (lines 92-98). -/
def buildGenerateRequest (question context : String) (history : List ChatMessage) :
    GenRequest :=
  let _trimmedContext := trimContext context
  { model := scoutModelId
    contents :=
      (history.map fun msg =>
        (if msg.role = MessageRole.user then "user" else "model", msg.content)) ++
        [("user", question)]
    systemInstruction := systemInstructionText }

/-- Whether `pat` occurs at the head of the second list. -/
def charsStartWith : List Char → List Char → Bool
  | [], _ => true
  | _ :: _, [] => false
  | p :: ps, c :: cs => p == c && charsStartWith ps cs

/-- Whether `pat` occurs contiguously anywhere in the second list. -/
def containsChars (pat : List Char) : List Char → Bool
  | [] => pat.isEmpty
  | c :: rest => charsStartWith pat (c :: rest) || containsChars pat rest

/-- Whether the string `s` occurs anywhere in the request: in the model id,
the system instruction, or any content part. -/
def requestMentions (s : String) (r : GenRequest) : Bool :=
  containsChars s.data r.model.data ||
    containsChars s.data r.systemInstruction.data ||
    r.contents.any fun p => containsChars s.data p.2.data

/-- Document construction in `handleFileUpload` (App.tsx lines 243-271):
the extracted text is chunked with the default parameters and the record
stores the text together with the chunk count; `type` falls back to
`text/plain` when the file reports an empty type. -/
def handleFileUpload (id fileName fileType : String) (fileSize uploadDate : Nat)
    (text : String) : DocumentInfo :=
  let chunks := chunkText text
  { id := id
    name := fileName
    type := if fileType = "" then "text/plain" else fileType
    content := text
    size := fileSize
    uploadDate := uploadDate
    chunkCount := chunks.length }

/-- Structure eta for `String`. -/
theorem string_eta (s : String) : (⟨s.data⟩ : String) = s := rfl

theorem chunkAux_nil (size step fuel : Nat) : chunkAux size step fuel [] = [] := by
  cases fuel <;> rfl

theorem chunkAux_congr_fuel (size step : Nat) (hstep : 0 < step) :
    ∀ fuel₁ fuel₂ (l : List Char), l.length ≤ fuel₁ → l.length ≤ fuel₂ →
      chunkAux size step fuel₁ l = chunkAux size step fuel₂ l := by
  intro fuel₁
  induction fuel₁ with
  | zero =>
    intro fuel₂ l h1 _
    have hl : l = [] := List.length_eq_zero.mp (Nat.le_zero.mp h1)
    subst hl
    rw [chunkAux_nil, chunkAux_nil]
  | succ f ih =>
    intro fuel₂ l h1 h2
    cases l with
    | nil => rw [chunkAux_nil, chunkAux_nil]
    | cons c rest =>
      cases fuel₂ with
      | zero => simp at h2
      | succ f₂ =>
        simp only [chunkAux]
        congr 1
        apply ih
        · simp only [List.length_drop, List.length_cons]
          simp only [List.length_cons] at h1
          omega
        · simp only [List.length_drop, List.length_cons]
          simp only [List.length_cons] at h2
          omega

theorem chunkList_cons (size step : Nat) (hstep : 0 < step) (c : Char) (rest : List Char) :
    chunkList size step (c :: rest) =
      (c :: rest).take size :: chunkList size step ((c :: rest).drop step) := by
  unfold chunkList
  simp only [List.length_cons, chunkAux]
  congr 1
  apply chunkAux_congr_fuel size step hstep
  · simp only [List.length_drop, List.length_cons]
    omega
  · exact Nat.le_refl _

theorem chunkList_length (size step : Nat) (hstep : 0 < step) :
    ∀ (n : Nat) (l : List Char), l.length ≤ n →
      (chunkList size step l).length = (l.length + step - 1) / step := by
  intro n
  induction n with
  | zero =>
    intro l hl
    have : l = [] := List.length_eq_zero.mp (Nat.le_zero.mp hl)
    subst this
    simp only [chunkList, List.length_nil, chunkAux, Nat.zero_add]
    exact (Nat.div_eq_of_lt (by omega)).symm
  | succ n ih =>
    intro l hl
    cases l with
    | nil =>
      simp only [chunkList, List.length_nil, chunkAux, Nat.zero_add]
      exact (Nat.div_eq_of_lt (by omega)).symm
    | cons c rest =>
      simp only [List.length_cons] at hl
      rw [chunkList_cons size step hstep]
      simp only [List.length_cons]
      rw [ih ((c :: rest).drop step)
        (by simp only [List.length_drop, List.length_cons]; omega)]
      simp only [List.length_drop, List.length_cons]
      rcases le_or_lt (rest.length + 1) step with h | h
      · have h1 : rest.length + 1 - step = 0 := by omega
        rw [h1]
        have e0 : (0 + step - 1) / step = 0 := Nat.div_eq_of_lt (by omega)
        have e1 : (rest.length + 1 + step - 1) / step = 1 :=
          Nat.div_eq_of_lt_le (by omega) (by omega)
        rw [e0, e1]
      · have h2 : rest.length + 1 - step + step - 1 + step = rest.length + 1 + step - 1 := by
          omega
        calc (rest.length + 1 - step + step - 1) / step + 1
            = (rest.length + 1 - step + step - 1 + step) / step :=
              (Nat.add_div_right _ hstep).symm
          _ = (rest.length + 1 + step - 1) / step := by rw [h2]

/-- Claim C3 (counterexample): at input `"abcd"` with `S = 4`, `O = 1` the
code produces 2 chunks, but the claimed formula
`ceil(max(L - O, 0) / (S - O))` gives 1. -/
theorem chunkText_count_formula_false :
    ¬ ((chunkText "abcd" 4 1).length =
        (max (("abcd" : String).length - 1) 0 + (4 - 1) - 1) / (4 - 1)) := by
  decide

/-- Claim C3 (amended): for `S > O` the number of chunks is
`ceil(L / (S - O))`, and the empty text yields the empty chunk sequence. -/
theorem chunkText_count (text : String) (size overlap : Nat) (hso : overlap < size) :
    (chunkText text size overlap).length =
      (text.length + (size - overlap) - 1) / (size - overlap) ∧
    chunkText "" size overlap = [] := by
  constructor
  · unfold chunkText
    rw [List.length_map]
    exact chunkList_length size (size - overlap) (by omega) text.data.length text.data
      (Nat.le_refl _)
  · rfl

/-- Witness for the amended C3 count at `"abcdefghij"`, `S = 4`, `O = 1`:
4 chunks, matching `ceil(10 / 3)`. -/
theorem chunkText_count_witness :
    (chunkText "abcdefghij" 4 1).length =
      (("abcdefghij" : String).length + (4 - 1) - 1) / (4 - 1) ∧
    chunkText "" 4 1 = [] :=
  chunkText_count "abcdefghij" 4 1 (by decide)

theorem chunkList_dropOverlap (size overlap : Nat) (hso : overlap < size) :
    ∀ (n : Nat) (l : List Char), l.length ≤ n →
      ((chunkList size (size - overlap) l).map (List.drop overlap)).flatten =
        l.drop overlap := by
  intro n
  induction n with
  | zero =>
    intro l hl
    have : l = [] := List.length_eq_zero.mp (Nat.le_zero.mp hl)
    subst this
    simp [chunkList, chunkAux]
  | succ n ih =>
    intro l hl
    cases l with
    | nil => simp [chunkList, chunkAux]
    | cons c rest =>
      simp only [List.length_cons] at hl
      rw [chunkList_cons size (size - overlap) (by omega)]
      simp only [List.map_cons, List.flatten_cons]
      rw [ih ((c :: rest).drop (size - overlap))
        (by simp only [List.length_drop, List.length_cons]; omega)]
      rw [List.drop_take, List.drop_drop]
      have h1 : size - overlap + overlap = size := by omega
      rw [h1]
      have h2 : (c :: rest).drop size = ((c :: rest).drop overlap).drop (size - overlap) := by
        rw [List.drop_drop]
        have : overlap + (size - overlap) = size := by omega
        rw [this]
      rw [h2, List.take_append_drop]

/-- Claim C7: for any text and any `S > O > 0`, concatenating the chunks of
`chunkText` with the first chunk in full and every later chunk stripped of
its first `O` characters reconstructs the input exactly. -/
theorem map_data_map_mk : ∀ cs : List (List Char),
    (cs.map fun c => (⟨c⟩ : String)).map String.data = cs := by
  intro cs
  induction cs with
  | nil => rfl
  | cons c rest ih =>
    simp only [List.map_cons]
    rw [ih]

theorem chunkText_merge_reconstructs (text : String) (size overlap : Nat)
    (hso : overlap < size) (_hpos : 0 < overlap) :
    mergeChunks overlap (chunkText text size overlap) = text := by
  have key : mergeChunkLists overlap (chunkList size (size - overlap) text.data) =
      text.data := by
    cases htd : text.data with
    | nil => simp [chunkList, chunkAux, mergeChunkLists]
    | cons c rest =>
      rw [chunkList_cons size (size - overlap) (by omega)]
      simp only [mergeChunkLists]
      rw [chunkList_dropOverlap size overlap hso ((c :: rest).drop (size - overlap)).length _
        (Nat.le_refl _)]
      rw [List.drop_drop]
      have h1 : size - overlap + overlap = size := by omega
      rw [h1, List.take_append_drop]
  unfold mergeChunks chunkText
  rw [map_data_map_mk, key, string_eta]

/-- Witness for C7 at `"abcdefghij"`, `S = 4`, `O = 1`. -/
theorem chunkText_merge_witness :
    mergeChunks 1 (chunkText "abcdefghij" 4 1) = "abcdefghij" :=
  chunkText_merge_reconstructs "abcdefghij" 4 1 (by decide) (by decide)

theorem chunkList_get (size step : Nat) (hstep : 0 < step) (hsize : 0 < size) :
    ∀ (n : Nat) (l : List Char), l.length ≤ n →
      ∀ i, i < (chunkList size step l).length →
        (chunkList size step l).getD i [] = (l.drop (i * step)).take size ∧
        (chunkList size step l).getD i [] ≠ [] ∧
        ((chunkList size step l).getD i []).length ≤ size := by
  intro n
  induction n with
  | zero =>
    intro l hl i hi
    have : l = [] := List.length_eq_zero.mp (Nat.le_zero.mp hl)
    subst this
    simp [chunkList, chunkAux] at hi
  | succ n ih =>
    intro l hl i hi
    cases l with
    | nil => simp [chunkList, chunkAux] at hi
    | cons c rest =>
      simp only [List.length_cons] at hl
      rw [chunkList_cons size step hstep] at hi ⊢
      cases i with
      | zero =>
        simp only [List.getD_cons_zero]
        rw [Nat.zero_mul, List.drop_zero]
        refine ⟨rfl, ?_, ?_⟩
        · cases size with
          | zero => omega
          | succ s => simp
        · rw [List.length_take]
          exact Nat.min_le_left _ _
      | succ i =>
        simp only [List.getD_cons_succ]
        simp only [List.length_cons] at hi
        have hrec := ih ((c :: rest).drop step)
          (by simp only [List.length_drop, List.length_cons]; omega) i (by omega)
        rw [List.drop_drop] at hrec
        have : step + i * step = (i + 1) * step := by ring
        rw [this] at hrec
        exact hrec

theorem getD_map_mk : ∀ (cs : List (List Char)) (i : Nat), i < cs.length →
    ((cs.map fun c => (⟨c⟩ : String)).getD i "") = ⟨cs.getD i []⟩ := by
  intro cs
  induction cs with
  | nil => intro i h; simp at h
  | cons c rest ih =>
    intro i h
    cases i with
    | zero => simp only [List.map_cons, List.getD_cons_zero]
    | succ i =>
      simp only [List.map_cons, List.getD_cons_succ]
      exact ih i (by simp only [List.length_cons] at h; omega)

/-- Claim C10: for `S > O > 0` every chunk of `chunkText` is non-empty, has
at most `S` characters, and the `i`-th chunk is the length-at-most-`S`
substring of the input starting at offset `i * (S - O)`. -/
theorem chunkText_chunk_shape (text : String) (size overlap : Nat)
    (hso : overlap < size) (_hpos : 0 < overlap) (i : Nat)
    (hi : i < (chunkText text size overlap).length) :
    (chunkText text size overlap).getD i "" =
      (⟨(text.data.drop (i * (size - overlap))).take size⟩ : String) ∧
    (chunkText text size overlap).getD i "" ≠ "" ∧
    ((chunkText text size overlap).getD i "").length ≤ size := by
  have hstep : 0 < size - overlap := by omega
  have hsize : 0 < size := by omega
  unfold chunkText at hi ⊢
  rw [List.length_map] at hi
  have hmain := chunkList_get size (size - overlap) hstep hsize text.data.length text.data
    (Nat.le_refl _) i hi
  rw [getD_map_mk _ i hi]
  refine ⟨by rw [hmain.1], ?_, ?_⟩
  · intro hcon
    apply hmain.2.1
    exact congrArg String.data hcon
  · have : (String.mk ((chunkList size (size - overlap) text.data).getD i [])).length =
        ((chunkList size (size - overlap) text.data).getD i []).length := rfl
    rw [this]
    exact hmain.2.2

/-- Witness for C10: the final chunk of `"abcdefghij"` with `S = 4`,
`O = 1` is the one-character substring at offset 9. -/
theorem chunkText_chunk_shape_witness :
    (chunkText "abcdefghij" 4 1).getD 3 "" =
      (⟨(("abcdefghij" : String).data.drop (3 * (4 - 1))).take 4⟩ : String) ∧
    (chunkText "abcdefghij" 4 1).getD 3 "" ≠ "" ∧
    ((chunkText "abcdefghij" 4 1).getD 3 "").length ≤ 4 :=
  chunkText_chunk_shape "abcdefghij" 4 1 (by decide) (by decide) 3 (by decide)

theorem chunkOffset_eq (size overlap : Int) :
    ∀ n : Nat, chunkOffset size overlap n = n * (size - overlap) := by
  intro n
  induction n with
  | zero => simp [chunkOffset]
  | succ k ih =>
    simp only [chunkOffset, ih]
    push_cast
    ring

/-- Claim C4: the `chunkText` loop terminates for every text when
`S > O` (the offset sequence escapes the text), and for `S ≤ O` the offset
never advances past a non-empty text, so the loop guard stays true forever
and the routine does not terminate. -/
theorem chunkText_loop_termination (text : String) (size overlap : Int) :
    (overlap < size → ∃ n : Nat, ¬ chunkOffset size overlap n < (text.length : Int)) ∧
    (size ≤ overlap → 0 < text.length →
      ∀ n : Nat, chunkOffset size overlap n < (text.length : Int)) := by
  constructor
  · intro h
    refine ⟨text.length, ?_⟩
    rw [chunkOffset_eq]
    have hstep : (1 : Int) ≤ size - overlap := by omega
    have hL : (0 : Int) ≤ (text.length : Int) := Int.natCast_nonneg _
    have : (text.length : Int) * 1 ≤ (text.length : Int) * (size - overlap) :=
      mul_le_mul_of_nonneg_left hstep hL
    rw [mul_one] at this
    exact not_lt.mpr this
  · intro h hlen n
    rw [chunkOffset_eq]
    have h1 : (n : Int) * (size - overlap) ≤ 0 :=
      mul_nonpos_of_nonneg_of_nonpos (Int.natCast_nonneg n) (by omega)
    have h2 : (0 : Int) < (text.length : Int) := by exact_mod_cast hlen
    linarith

/-- Witness for C4: with `S = 4 > O = 1` the offsets escape `"abc"`, and
with `S = 1 ≤ O = 4` every offset stays below its length. -/
theorem chunkText_loop_termination_witness :
    (∃ n : Nat, ¬ chunkOffset 4 1 n < (("abc" : String).length : Int)) ∧
    (∀ n : Nat, chunkOffset 1 4 n < (("abc" : String).length : Int)) :=
  ⟨(chunkText_loop_termination "abc" 4 1).1 (by decide),
    fun n => (chunkText_loop_termination "abc" 1 4).2 (by decide) (by decide) n⟩

/-- Claim C5: every `DocumentInfo` produced by the upload handler satisfies
the invariant that `chunkCount` equals the length of chunking its `content`
with the pipeline's fixed default parameters 2000 and 200. -/
theorem handleFileUpload_chunkCount_invariant
    (id fileName fileType : String) (fileSize uploadDate : Nat) (text : String) :
    (handleFileUpload id fileName fileType fileSize uploadDate text).chunkCount =
      (chunkText (handleFileUpload id fileName fileType fileSize uploadDate text).content
        2000 200).length := rfl

/-- Claim C1: the request `generateResponse` sends is independent of the
document context (the `trimmedContext` computed on llmService.ts line 77 is
never used), and at a concrete input the built request mentions the
document content nowhere: not in the model id, not in the system
instruction, and in no content part. -/
theorem generateRequest_omits_context :
    (∀ (question context : String) (history : List ChatMessage),
      buildGenerateRequest question context history =
        buildGenerateRequest question "" history) ∧
    requestMentions "SECRETDOCCONTENT"
      (buildGenerateRequest "q" "SECRETDOCCONTENT" []) = false ∧
    (buildGenerateRequest "q" "SECRETDOCCONTENT" []).contents = [("user", "q")] := by
  refine ⟨fun _ _ _ => rfl, by decide, rfl⟩

/-- Claim C2 (counterexample): on the spec's concrete scenario input the
normalizer does not return `"Hello world foo"`; removing `"Page 3"` leaves
both of its surrounding spaces in place. -/
theorem cleanText_scenario_claim_false :
    cleanText "Hello   world\n\n\nPage 3 foo" ≠ "Hello world foo" := by
  decide

/-- Claim C2 (amended): the normalizer returns `"Hello world  foo"` — with
two spaces between `world` and `foo` — because artifact removal happens
after whitespace collapsing and the adjacent spaces are not re-collapsed. -/
theorem cleanText_scenario :
    cleanText "Hello   world\n\n\nPage 3 foo" = "Hello world  foo" := by
  decide

/-- Claim C6 (counterexample): `cleanText` is not idempotent; removing
`"Page 1"` from `"a Page 1 b"` leaves a double space that only the second
application collapses. -/
theorem cleanText_not_idempotent :
    cleanText (cleanText "a Page 1 b") ≠ cleanText "a Page 1 b" := by
  decide

theorem collapseWs_of_wsOk : ∀ l : List Char, wsOk l = true → collapseWs l = l := by
  intro l
  induction l with
  | nil => intro _; rfl
  | cons c rest ih =>
    intro h
    cases rest with
    | nil =>
      by_cases hc : isJsSpace c = true
      · have hsp : c = ' ' := by
          simp only [wsOk, hc, Bool.not_true, Bool.false_or, beq_iff_eq] at h
          exact h
        simp [collapseWs, hc, hsp]
      · simp [collapseWs, hc]
    | cons d rest' =>
      simp only [wsOk, Bool.and_eq_true] at h
      obtain ⟨hcond, hrest⟩ := h
      by_cases hc : isJsSpace c = true
      · simp only [hc, Bool.not_true, Bool.false_or, Bool.and_eq_true, beq_iff_eq,
          Bool.not_eq_true'] at hcond
        obtain ⟨hsp, hd⟩ := hcond
        simp [collapseWs, hc, hd, hsp, ih hrest]
      · simp only [Bool.not_eq_true] at hc
        simp [collapseWs, hc, ih hrest]

theorem collapseNl_of_wsOk : ∀ l : List Char, wsOk l = true → collapseNl l = l := by
  intro l
  induction l with
  | nil => intro _; rfl
  | cons c rest ih =>
    intro h
    cases rest with
    | nil => rfl
    | cons d rest' =>
      simp only [wsOk, Bool.and_eq_true] at h
      obtain ⟨hcond, hrest⟩ := h
      have hcnl : ¬ (c == '\n' && d == '\n') = true := by
        intro hcon
        simp only [Bool.and_eq_true, beq_iff_eq] at hcon
        obtain ⟨hc, _⟩ := hcon
        subst hc
        simp only [Bool.not_eq_true', Bool.or_eq_true, Bool.not_eq_true,
          Bool.and_eq_true, beq_iff_eq] at hcond
        rcases hcond with h1 | ⟨h2, _⟩
        · exact absurd h1 (by decide)
        · exact absurd h2 (by decide)
      simp [collapseNl, hcnl, ih hrest]

theorem removePA_no_artifact : ∀ l : List Char, hasArtifact l = false →
    ∀ fuel, l.length ≤ fuel → removePA fuel l = l := by
  intro l
  induction l with
  | nil =>
    intro _ fuel _
    cases fuel <;> rfl
  | cons c rest ih =>
    intro h fuel hf
    simp only [hasArtifact, Bool.or_eq_false_iff] at h
    obtain ⟨hm, hrest⟩ := h
    have hmn : matchPageAt (c :: rest) = none := by
      cases hmp : matchPageAt (c :: rest) with
      | none => rfl
      | some r => rw [hmp] at hm; simp at hm
    cases fuel with
    | zero => simp only [List.length_cons] at hf; omega
    | succ f =>
      simp only [removePA, hmn]
      rw [ih hrest f (by simp only [List.length_cons] at hf; omega)]

theorem dropWhile_dropWhile (p : Char → Bool) :
    ∀ l : List Char, (l.dropWhile p).dropWhile p = l.dropWhile p := by
  intro l
  induction l with
  | nil => rfl
  | cons c rest ih =>
    by_cases hc : p c = true
    · simp only [List.dropWhile_cons, hc, if_true]
      exact ih
    · simp only [List.dropWhile_cons, hc, if_false]
      simp only [Bool.not_eq_true] at hc
      simp [List.dropWhile_cons, hc]

theorem dropWhile_head_false (p : Char → Bool) :
    ∀ (l : List Char) (a : Char) (t : List Char),
      l.dropWhile p = a :: t → p a = false := by
  intro l
  induction l with
  | nil => intro a t h; simp at h
  | cons c rest ih =>
    intro a t h
    by_cases hc : p c = true
    · rw [List.dropWhile_cons, if_pos hc] at h
      exact ih a t h
    · rw [List.dropWhile_cons, if_neg hc] at h
      cases h
      simpa using hc

theorem dropWhile_is_suffix (p : Char → Bool) :
    ∀ l : List Char, ∃ u : List Char, l = u ++ l.dropWhile p := by
  intro l
  exact ⟨l.takeWhile p, (List.takeWhile_append_dropWhile p l).symm⟩

theorem trimChars_idem (l : List Char) : trimChars (trimChars l) = trimChars l := by
  unfold trimChars
  have h1 : (((l.dropWhile isJsSpace).reverse.dropWhile isJsSpace).reverse).dropWhile
      isJsSpace = ((l.dropWhile isJsSpace).reverse.dropWhile isJsSpace).reverse := by
    cases hr : ((l.dropWhile isJsSpace).reverse.dropWhile isJsSpace).reverse with
    | nil => rfl
    | cons a t =>
      obtain ⟨u, hu⟩ := dropWhile_is_suffix isJsSpace (l.dropWhile isJsSpace).reverse
      have hm : l.dropWhile isJsSpace =
          ((l.dropWhile isJsSpace).reverse.dropWhile isJsSpace).reverse ++ u.reverse := by
        have := congrArg List.reverse hu
        rwa [List.reverse_reverse, List.reverse_append] at this
      rw [hr] at hm
      have ha : isJsSpace a = false :=
        dropWhile_head_false isJsSpace l a (t ++ u.reverse) (by rw [hm]; rfl)
      rw [List.dropWhile_cons, if_neg (by simp [ha])]
  rw [h1, List.reverse_reverse, dropWhile_dropWhile]

/-- Claim C6 (amended): `cleanText` is idempotent at every input whose
normalized output is free of page artifacts and of double whitespace (in
general idempotence fails, as artifact removal can leave adjacent spaces
or fresh artifacts for a second pass to consume). -/
theorem cleanText_idem_of_normal (x : String)
    (hws : wsOk (cleanText x).data = true)
    (hart : hasArtifact (cleanText x).data = false) :
    cleanText (cleanText x) = cleanText x := by
  have h1 : collapseNl (cleanText x).data = (cleanText x).data :=
    collapseNl_of_wsOk _ hws
  have h2 : collapseWs (cleanText x).data = (cleanText x).data :=
    collapseWs_of_wsOk _ hws
  have h3 : removePageArtifacts (cleanText x).data = (cleanText x).data := by
    unfold removePageArtifacts
    exact removePA_no_artifact _ hart _ (Nat.le_refl _)
  have h4 : trimChars (cleanText x).data = (cleanText x).data :=
    trimChars_idem (removePageArtifacts (collapseWs (collapseNl x.data)))
  show (⟨trimChars (removePageArtifacts (collapseWs (collapseNl (cleanText x).data)))⟩ :
      String) = cleanText x
  rw [h1, h2, h3, h4, string_eta]

/-- Witness for the amended C6: `"hello Page 12"` normalizes to `"hello"`,
which is artifact-free and whitespace-normal, and a second application is
the identity there. -/
theorem cleanText_idem_witness :
    wsOk (cleanText "hello Page 12").data = true ∧
    hasArtifact (cleanText "hello Page 12").data = false ∧
    cleanText (cleanText "hello Page 12") = cleanText "hello Page 12" :=
  ⟨by decide, by decide,
    cleanText_idem_of_normal "hello Page 12" (by decide) (by decide)⟩

/-- Claim C8: dispatch selects the decoder by the case-insensitively
compared extension — `PDF`, `pdf` and `Pdf` all select the PDF decoder,
and more generally dispatch depends only on the derived extension — and
any name whose extension falls outside the set selects no decoder and
fails with the error naming that extension. -/
theorem selectDecoder_spec :
    (selectDecoder "doc.PDF" = .ok .pdf ∧ selectDecoder "doc.pdf" = .ok .pdf ∧
      selectDecoder "doc.Pdf" = .ok .pdf) ∧
    (∀ n₁ n₂ : String, fileExtension n₁ = fileExtension n₂ →
      selectDecoder n₁ = selectDecoder n₂) ∧
    (∀ name : String, fileExtension name ∉ (["pdf", "docx", "txt"] : List String) →
      selectDecoder name = .error ("Unsupported file type: " ++ fileExtension name)) := by
  refine ⟨⟨by decide, by decide, by decide⟩, ?_, ?_⟩
  · intro n₁ n₂ h
    unfold selectDecoder
    rw [h]
  · intro name h
    simp only [List.mem_cons, List.not_mem_nil, or_false, not_or] at h
    obtain ⟨h1, h2, h3⟩ := h
    simp [selectDecoder, h1, h2, h3]

/-- Witness for C8: the extension `exe` is unsupported and the error names
it. -/
theorem selectDecoder_spec_witness :
    selectDecoder "virus.exe" = .error ("Unsupported file type: " ++ fileExtension "virus.exe") :=
  selectDecoder_spec.2.2 "virus.exe" (by decide)

theorem splitOnDot_no_dot : ∀ l : List Char, '.' ∉ l → splitOnDot l = [l] := by
  intro l
  induction l with
  | nil => intro _; rfl
  | cons c rest ih =>
    intro h
    have hc : ¬ c = '.' := fun hcon => h (hcon ▸ List.mem_cons_self c rest)
    have hrest : '.' ∉ rest := fun hcon => h (List.mem_cons_of_mem c hcon)
    simp only [splitOnDot, ih hrest]
    rw [if_neg (by simpa using fun hcon => hc (by simpa using hcon))]

/-- Claim C9: the extension is the lowercased segment after the last dot;
a name with no dot is its own (lowercased) extension, so a file literally
named `pdf` dispatches to the PDF decoder instead of being rejected, and a
multi-dot name keeps only its final segment. -/
theorem fileExtension_spec :
    (∀ name : String, '.' ∉ name.data →
      fileExtension name = ⟨name.data.map Char.toLower⟩) ∧
    selectDecoder "pdf" = .ok .pdf ∧
    fileExtension "Report.V2.PDF" = "pdf" := by
  refine ⟨?_, by decide, by decide⟩
  intro name h
  unfold fileExtension
  rw [splitOnDot_no_dot name.data h]
  rfl

/-- Witness for C9: a dotless name such as `README` lowercases wholesale
into the extension. -/
theorem fileExtension_spec_witness :
    fileExtension "README" = ⟨("README" : String).data.map Char.toLower⟩ :=
  fileExtension_spec.1 "README" (by decide)
